import Mathlib

/-!
Shallow embedding of the OMD Livestatus dynamic-inventory script
(`omd_livestatus.py`): the local-socket transport, the response codec,
the two inventory builders (`build_inventory_by_ip`,
`build_inventory_by_name`) and the output renderers (`host`, `static`),
together with theorems checking the specification's claims about them.
-/

namespace OMDLivestatus

/-- One host row as produced by `load_from_omd`, which zips the five queried
columns `address name alias groups host_custom_variables` with the keys
`ip, name, alias, groups, custom_vars`. -/
structure HostRecord where
  ip : String
  name : String
  «alias» : String
  groups : List String
  custom_vars : List (String × String)
deriving Repr, DecidableEq

/-- Insertion-ordered dictionary lookup, Python `d[k]` / `k in d` on a dict
represented as an association list in insertion order. -/
def lookupA {α β : Type} [DecidableEq α] (k : α) : List (α × β) → Option β
  | [] => none
  | p :: rest => if p.1 = k then some p.2 else lookupA k rest

/-- Python `d[k] = v` on an insertion-ordered dict: an existing key keeps its
position and its value is overwritten; a fresh key is appended at the end. -/
def setA {α β : Type} [DecidableEq α] (k : α) (v : β) : List (α × β) → List (α × β)
  | [] => [(k, v)]
  | p :: rest => if p.1 = k then (k, v) :: rest else p :: setA k v rest

/-- String of bad characters in host or group names (`_bad_chars`). -/
def _bad_chars : String := ".,;:[]/ "

/-- Replacement for bad characters (`_replacement_char`). -/
def _replacement_char : String := "_"

/-- Translation table for sanitizing group names (`self._trans_table`):
maps the code point of each bad character to the replacement string,
mirroring `dict((ord(char), self._replacement_char) for char in self._bad_chars)`. -/
def _trans_table : List (Nat × String) :=
  _bad_chars.data.map (fun c => (c.toNat, _replacement_char))

/-- Python `str.translate(table)`: every character whose code point is a key
of the table is replaced by the mapped string, all other characters are
kept unchanged. -/
def translate (s : String) (table : List (Nat × String)) : String :=
  String.join (s.data.map (fun c =>
    match lookupA c.toNat table with
    | some r => r
    | none => String.singleton c))

/-- The sanitization `group.translate(self._trans_table)` applied to every
raw group name by both builders. -/
def sanitize (g : String) : String := translate g _trans_table

/-- The specification's description of sanitization, stated independently of
the source's translation-table mechanism: each character of the forbidden
set is replaced by `_`, all other characters are left unchanged. -/
def sanitizeSpec (s : String) : String :=
  String.mk (s.data.map (fun c => if c ∈ _bad_chars.data then '_' else c))

/-- Python `host['groups'] or [u'_NOGROUP']`: a record with an empty group list is
treated as belonging to the single sentinel group. -/
def groupsOrDefault (h : HostRecord) : List String :=
  if h.groups.isEmpty then ["_NOGROUP"] else h.groups

/-- The groups part of a built inventory: sanitized group name to the list of
host identifiers appended in response order. -/
abbrev Groups := List (String × List String)

/-- One value of a per-host variable map: a plain string, or the nested
custom-variables dictionary stored under `omd_custom_vars`. -/
inductive VarVal where
  | str (s : String)
  | table (m : List (String × String))
deriving Repr, DecidableEq

/-- A per-host variable map, e.g. `{'ansible_host': ..., 'omd_alias': ...}`. -/
abbrev HVars := List (String × VarVal)

/-- The host-variables mapping stored under `inventory['_meta']['hostvars']`. -/
abbrev HostVars := List (String × HVars)

/-- The two components of the built inventory: the group dictionary and the
hostvars dictionary attached under the `'_meta'` key. -/
abbrev Inventory := Groups × HostVars

/-- The body of the inner loop of both builders:
`inventory[sanitized_group].append(ident)` when the (already sanitized) key
exists, else `inventory[sanitized_group] = [ident]` (fresh key at the end). -/
def appendGroup (g ident : String) : Groups → Groups
  | [] => [(g, [ident])]
  | p :: rest =>
    if p.1 = g then (p.1, p.2 ++ [ident]) :: rest else p :: appendGroup g ident rest

/-- The inner loop `for group in host['groups'] or ['_NOGROUP']`: sanitize each
raw group name and append the chosen identifier under it. -/
def addGroups (ident : String) (gs : List String) (inv : Groups) : Groups :=
  gs.foldl (fun acc g => appendGroup (sanitize g) ident acc) inv

/-- The hostvars recorded for one host by `build_inventory_by_ip`. -/
def hostvarsByIp (h : HostRecord) : HVars :=
  [("omd_name", VarVal.str h.name),
   ("omd_alias", VarVal.str h.alias),
   ("omd_custom_vars", VarVal.table h.custom_vars)]

/-- The hostvars recorded for one host by `build_inventory_by_name`. -/
def hostvarsByName (h : HostRecord) : HVars :=
  [("ansible_host", VarVal.str h.ip),
   ("omd_alias", VarVal.str h.alias),
   ("omd_custom_vars", VarVal.table h.custom_vars)]

/-- One iteration of the loop of `build_inventory_by_ip`: append the
address to every sanitized group, then record hostvars only when the
address has no entry yet (`if ip not in hostvars`), keeping the first
occurrence. -/
def stepByIp (st : Inventory) (h : HostRecord) : Inventory :=
  (addGroups h.ip (groupsOrDefault h) st.1,
   if (lookupA h.ip st.2).isSome then st.2 else st.2 ++ [(h.ip, hostvarsByIp h)])

/-- Loop of `build_inventory_by_ip`: iterate the host records in response order. -/
def build_inventory_by_ip (hosts : List HostRecord) : Inventory :=
  hosts.foldl stepByIp ([], [])

/-- One iteration of the loop of `build_inventory_by_name`: append the name
to every sanitized group, then `hostvars[host['name']] = {...}`, an
unconditional dictionary store that overwrites an existing entry. -/
def stepByName (st : Inventory) (h : HostRecord) : Inventory :=
  (addGroups h.name (groupsOrDefault h) st.1,
   setA h.name (hostvarsByName h) st.2)

/-- Loop of `build_inventory_by_name`: iterate the host records in response order. -/
def build_inventory_by_name (hosts : List HostRecord) : Inventory :=
  hosts.foldl stepByName ([], [])

/-- Serialization of one hostvars value by `json.dumps` (string escaping is
elided: no claim depends on it and the queried values are plain text). -/
def jval : VarVal → String
  | VarVal.str s => "\x22" ++ s ++ "\x22"
  | VarVal.table m =>
    "\x7b" ++ String.intercalate ", "
      (m.map (fun p => "\x22" ++ p.1 ++ "\x22: \x22" ++ p.2 ++ "\x22")) ++ "\x7d"

/-- Serialization by `json.dumps` of a per-host variable map with default separators. -/
def jdumps (v : HVars) : String :=
  "\x7b" ++ String.intercalate ", "
    (v.map (fun p => "\x22" ++ p.1 ++ "\x22: " ++ jval p.2)) ++ "\x7d"

/-- The `host(name)` renderer: the hostvars of the requested host as JSON
when `name in self.inventory['_meta']['hostvars']`, and the literal JSON
document `"\x7b\x7d"` (an empty object) otherwise. -/
def host (inv : Inventory) (name : String) : String :=
  match lookupA name inv.2 with
  | some v => jdumps v
  | none => "\x7b\x7d"

/-- The natural string form of a hostvars value as interpolated by
`'\x7b0\x7d="\x7b1\x7d"'.format(varname, vars[varname])` in `static`. -/
def VarVal.natStr : VarVal → String
  | VarVal.str s => s
  | VarVal.table m =>
    "\x7b" ++ String.intercalate ", " (m.map (fun p => p.1 ++ ": " ++ p.2)) ++ "\x7d"

/-- One host line of the static format: the identifier, a tab, and the
space-joined `key="value"` pairs. The hostvars lookup is Python
`self.inventory['_meta']['hostvars'][host]`, whose `KeyError` on a missing
entry is modelled as `none`. -/
def staticHostLine (hv : HostVars) (ident : String) : Option String :=
  (lookupA ident hv).map (fun vars =>
    ident ++ "\t" ++ String.intercalate " "
      (vars.map (fun p => p.1 ++ "=\x22" ++ p.2.natStr ++ "\x22")))

/-- Mapping over `Option`, written out: the loops of `static` stop with a
`KeyError` (`none`) as soon as one lookup fails. -/
def mapO {α β : Type} (f : α → Option β) : List α → Option (List β)
  | [] => some []
  | x :: xs =>
    match f x, mapO f xs with
    | some y, some ys => some (y :: ys)
    | _, _ => none

/-- The `static()` renderer: a timestamp comment, then per group (the groups
component, i.e. every inventory key except `'_meta'`) a `[group]` header
followed by one line per host, all joined by newlines. `now` stands for
`datetime.datetime.now()`. The result is `none` exactly when some host in
a group list has no hostvars entry (Python `KeyError`). -/
def static (now : String) (inv : Inventory) : Option String :=
  match mapO (fun p =>
      (mapO (staticHostLine inv.2) p.2).map
        (fun lines => ("\n[" ++ p.1 ++ "]") :: lines)) inv.1 with
  | some sections =>
    some (String.intercalate "\n"
      (("# File created: " ++ now) :: sections.foldr (· ++ ·) []))
  | none => none

/-- Transport `_read_from_socket`: connect to the socket, send the query, shut down the
write side, and return `s.recv(100000000).decode('utf-8')` — the result of
a single bounded `recv`. The stream is modelled as the list of chunks that
successive `recv` calls would deliver before end-of-stream; one `recv`
returns the first available chunk (possibly shorter than the bound). -/
def _read_from_socket (chunks : List String) : String := chunks.headD ""

/-- Modelled from the spec: reading from the channel until the peer closes
the connection accumulates every delivered chunk up to end-of-stream; the
returned text is the concatenation of all chunks. -/
def readUntilClose (chunks : List String) : String := String.join chunks

/-- Split a character list at every occurrence of the separator; the
separator itself is dropped. -/
def splitOnChar (sep : Char) : List Char → List (List Char)
  | [] => [[]]
  | c :: rest =>
    match splitOnChar sep rest with
    | [] => if c = sep then [[], []] else [[c]]
    | a :: as => if c = sep then [] :: a :: as else (c :: a) :: as

/-- Strip surrounding whitespace from a character list. -/
def trimChars (l : List Char) : List Char :=
  ((l.dropWhile Char.isWhitespace).reverse.dropWhile Char.isWhitespace).reverse

/-- Modelled from the spec: the delimited-text decode mode of the codec is
absent from `src/omd_livestatus.py`, which only implements the structured
JSON mode; per the spec, each line is one host, fields are separated by
the fixed delimiter `;` in the order address, name, alias, groups, the
groups field is a comma-separated sub-list with empty segments dropped and
each segment trimmed of surrounding whitespace, and no custom-variables
field is present. A line with the wrong field count is a protocol error. -/
def decodeDelimitedLine (line : List Char) : Except String HostRecord :=
  match splitOnChar ';' line with
  | [a, n, al, gs] =>
    Except.ok
      { ip := String.mk a, name := String.mk n, «alias» := String.mk al,
        groups :=
          ((splitOnChar ',' gs).map (fun g => String.mk (trimChars g))).filter
            (fun g => g ≠ ""),
        custom_vars := [] }
  | _ => Except.error "wrong field count in delimited response line"

/-- Modelled from the spec: delimited-text decoding of a whole response; each
non-empty line is one host. -/
def decodeDelimited (resp : String) : Except String (List HostRecord) :=
  ((splitOnChar (Char.ofNat 10) resp.data).filter (fun l => l ≠ [])).mapM
    decodeDelimitedLine

/-- The identifiers one record appends to the group named `g`: one copy of
`ident h` for every raw group of the record sanitizing to `g`. -/
def contribOf (ident : HostRecord → String) (g : String) (h : HostRecord) : List String :=
  (groupsOrDefault h).filterMap (fun raw => if sanitize raw = g then some (ident h) else none)

/-- All identifiers appended to the group named `g` over a record sequence,
in response order. -/
def allContrib (ident : HostRecord → String) (g : String) : List HostRecord → List String
  | [] => []
  | h :: hs => contribOf ident g h ++ allContrib ident g hs

/-- Combine the previous value of a group entry with newly appended
identifiers: absent stays absent when nothing is appended was appended. -/
def combineOpt (old : Option (List String)) (add : List String) : Option (List String) :=
  if add.isEmpty then old else some (old.getD [] ++ add)

theorem lookupA_append {α β : Type} [DecidableEq α] (k : α) (l1 l2 : List (α × β)) :
    lookupA k (l1 ++ l2) = (lookupA k l1).or (lookupA k l2) := by
  induction l1 with
  | nil => simp [lookupA]
  | cons p rest ih =>
    by_cases h : p.1 = k <;> simp [lookupA, h, ih, Option.or]

theorem lookupA_setA {α β : Type} [DecidableEq α] (k k' : α) (v : β) (l : List (α × β)) :
    lookupA k (setA k' v l) = if k' = k then some v else lookupA k l := by
  induction l with
  | nil => simp [setA, lookupA]
  | cons p rest ih =>
    by_cases h : p.1 = k'
    · subst h
      by_cases h2 : p.1 = k <;> simp [setA, lookupA, h2, ih]
    · by_cases h2 : p.1 = k <;> by_cases h3 : k' = k <;>
        simp_all [setA, lookupA]

theorem lookupA_appendGroup (g x k : String) (inv : Groups) :
    lookupA k (appendGroup g x inv)
      = if g = k then some ((lookupA k inv).getD [] ++ [x]) else lookupA k inv := by
  induction inv with
  | nil => by_cases h : g = k <;> simp [appendGroup, lookupA, h]
  | cons p rest ih =>
    by_cases h : p.1 = g
    · by_cases h2 : g = k <;> simp_all [appendGroup, lookupA]
    · by_cases h2 : p.1 = k
      · have h3 : ¬ (g = k) := fun e => h (h2.trans e.symm)
        have h4 : ¬ (k = g) := fun e => h3 e.symm
        simp [appendGroup, lookupA, h, h2, h3, h4]
      · simp [appendGroup, lookupA, h, h2, ih]

theorem combineOpt_combineOpt (o : Option (List String)) (a b : List String) :
    combineOpt (combineOpt o a) b = combineOpt o (a ++ b) := by
  cases a <;> cases b <;> simp [combineOpt, List.append_assoc]

theorem lookupA_addGroups (x : String) (gs : List String) (inv : Groups) (k : String) :
    lookupA k (addGroups x gs inv)
      = combineOpt (lookupA k inv)
          (gs.filterMap (fun raw => if sanitize raw = k then some x else none)) := by
  induction gs generalizing inv with
  | nil => simp [addGroups, combineOpt]
  | cons g rest ih =>
    have e1 : addGroups x (g :: rest) inv = addGroups x rest (appendGroup (sanitize g) x inv) :=
      rfl
    rw [e1, ih, lookupA_appendGroup, List.filterMap_cons]
    by_cases h : sanitize g = k
    · rw [if_pos h, if_pos h]
      have e2 : some ((lookupA k inv).getD [] ++ [x]) = combineOpt (lookupA k inv) [x] := rfl
      rw [e2, combineOpt_combineOpt]
      rfl
    · rw [if_neg h, if_neg h]

theorem groups_foldl_byIp (hosts : List HostRecord) (st : Inventory) (k : String) :
    lookupA k ((hosts.foldl stepByIp st).1)
      = combineOpt (lookupA k st.1) (allContrib HostRecord.ip k hosts) := by
  induction hosts generalizing st with
  | nil => simp [allContrib, combineOpt]
  | cons h hs ih =>
    have e1 : (h :: hs).foldl stepByIp st = hs.foldl stepByIp (stepByIp st h) := rfl
    rw [e1, ih]
    have e2 : (stepByIp st h).1 = addGroups h.ip (groupsOrDefault h) st.1 := rfl
    rw [e2, lookupA_addGroups, combineOpt_combineOpt]
    rfl

theorem groups_foldl_byName (hosts : List HostRecord) (st : Inventory) (k : String) :
    lookupA k ((hosts.foldl stepByName st).1)
      = combineOpt (lookupA k st.1) (allContrib HostRecord.name k hosts) := by
  induction hosts generalizing st with
  | nil => simp [allContrib, combineOpt]
  | cons h hs ih =>
    have e1 : (h :: hs).foldl stepByName st = hs.foldl stepByName (stepByName st h) := rfl
    rw [e1, ih]
    have e2 : (stepByName st h).1 = addGroups h.name (groupsOrDefault h) st.1 := rfl
    rw [e2, lookupA_addGroups, combineOpt_combineOpt]
    rfl

theorem hostvars_foldl_byIp (hosts : List HostRecord) (st : Inventory) (a : String) :
    lookupA a ((hosts.foldl stepByIp st).2)
      = (lookupA a st.2).or ((hosts.find? (fun h => h.ip == a)).map hostvarsByIp) := by
  induction hosts generalizing st with
  | nil => simp
  | cons h hs ih =>
    have e1 : (h :: hs).foldl stepByIp st = hs.foldl stepByIp (stepByIp st h) := rfl
    rw [e1, ih]
    by_cases hip : h.ip = a
    · subst hip
      cases hc : lookupA h.ip st.2 with
      | some v =>
        have e2 : (stepByIp st h).2 = st.2 := by simp [stepByIp, hc]
        simp [e2, hc, List.find?, Option.or]
      | none =>
        have e2 : (stepByIp st h).2 = st.2 ++ [(h.ip, hostvarsByIp h)] := by
          simp [stepByIp, hc]
        rw [e2, lookupA_append, hc]
        simp [lookupA, List.find?, Option.or]
    · have e3 : lookupA a (stepByIp st h).2 = lookupA a st.2 := by
        by_cases hc : (lookupA h.ip st.2).isSome
        · simp [stepByIp, hc]
        · have e5 : (stepByIp st h).2 = st.2 ++ [(h.ip, hostvarsByIp h)] := by
            simp [stepByIp, hc]
          have e6 : lookupA a [(h.ip, hostvarsByIp h)] = none := by
            simp [lookupA, hip]
          rw [e5, lookupA_append, e6, Option.or_none]
      have hb0 : (h.ip == a) = false := by
        simp only [beq_eq_false_iff_ne, ne_eq]
        exact hip
      have e4 : List.find? (fun h0 => h0.ip == a) (h :: hs)
          = List.find? (fun h0 => h0.ip == a) hs := by
        simp [List.find?, hb0]
      rw [e3, e4]

theorem hostvars_foldl_byName (hosts : List HostRecord) (st : Inventory) (n : String) :
    lookupA n ((hosts.foldl stepByName st).2)
      = ((hosts.reverse.find? (fun h => h.name == n)).map hostvarsByName).or
          (lookupA n st.2) := by
  induction hosts generalizing st with
  | nil => simp
  | cons h hs ih =>
    have e1 : (h :: hs).foldl stepByName st = hs.foldl stepByName (stepByName st h) := rfl
    rw [e1, ih]
    have e2 : (stepByName st h).2 = setA h.name (hostvarsByName h) st.2 := rfl
    rw [e2, lookupA_setA, List.reverse_cons, List.find?_append]
    have e3 : (Option.map hostvarsByName ((hs.reverse.find? (fun h0 => h0.name == n)).or
        (List.find? (fun h0 => h0.name == n) [h])))
        = ((hs.reverse.find? (fun h0 => h0.name == n)).map hostvarsByName).or
            ((List.find? (fun h0 => h0.name == n) [h]).map hostvarsByName) := by
      cases hs.reverse.find? (fun h0 => h0.name == n) <;> rfl
    rw [e3, Option.or_assoc]
    by_cases hn : h.name = n
    · rw [if_pos hn]
      have hb : List.find? (fun h0 => h0.name == n) [h] = some h := by
        simp [List.find?, hn]
      rw [hb]
      cases hs.reverse.find? (fun h0 => h0.name == n) <;> rfl
    · rw [if_neg hn]
      have hb0 : (h.name == n) = false := by
        simp only [beq_eq_false_iff_ne, ne_eq]
        exact hn
      have hb : List.find? (fun h0 => h0.name == n) [h] = none := by
        simp [List.find?, hb0]
      rw [hb]
      cases hs.reverse.find? (fun h0 => h0.name == n) <;> rfl

theorem translateChar_eq (c : Char) :
    (match lookupA c.toNat _trans_table with
      | some r => r
      | none => String.singleton c)
      = String.singleton (if c ∈ _bad_chars.data then '_' else c) := by
  by_cases h : c ∈ _bad_chars.data
  · rw [show _bad_chars.data = ['.', ',', ';', ':', '[', ']', '/', ' '] from rfl] at h
    fin_cases h <;> decide
  · have key : ∀ m : Nat, m = c.toNat → Char.ofNat m = c := by
      intro m e
      rw [e, Char.ofNat_toNat]
    have h46 : ¬ ('.'.toNat = c.toNat) :=
      fun e => h ((key '.'.toNat e) ▸ (by decide : Char.ofNat '.'.toNat ∈ _bad_chars.data))
    have h44 : ¬ (','.toNat = c.toNat) :=
      fun e => h ((key ','.toNat e) ▸ (by decide : Char.ofNat ','.toNat ∈ _bad_chars.data))
    have h59 : ¬ (';'.toNat = c.toNat) :=
      fun e => h ((key ';'.toNat e) ▸ (by decide : Char.ofNat ';'.toNat ∈ _bad_chars.data))
    have h58 : ¬ (':'.toNat = c.toNat) :=
      fun e => h ((key ':'.toNat e) ▸ (by decide : Char.ofNat ':'.toNat ∈ _bad_chars.data))
    have h91 : ¬ ('['.toNat = c.toNat) :=
      fun e => h ((key '['.toNat e) ▸ (by decide : Char.ofNat '['.toNat ∈ _bad_chars.data))
    have h93 : ¬ (']'.toNat = c.toNat) :=
      fun e => h ((key ']'.toNat e) ▸ (by decide : Char.ofNat ']'.toNat ∈ _bad_chars.data))
    have h47 : ¬ ('/'.toNat = c.toNat) :=
      fun e => h ((key '/'.toNat e) ▸ (by decide : Char.ofNat '/'.toNat ∈ _bad_chars.data))
    have h32 : ¬ (' '.toNat = c.toNat) :=
      fun e => h ((key ' '.toNat e) ▸ (by decide : Char.ofNat ' '.toNat ∈ _bad_chars.data))
    have htab : _trans_table
        = [((46 : Nat), "_"), ((44 : Nat), "_"), ((59 : Nat), "_"), ((58 : Nat), "_"),
           ((91 : Nat), "_"), ((93 : Nat), "_"), ((47 : Nat), "_"), ((32 : Nat), "_")] := rfl
    simp only [htab, lookupA]
    rw [if_neg h46, if_neg h44, if_neg h59, if_neg h58, if_neg h91, if_neg h93,
      if_neg h47, if_neg h32, if_neg h]

theorem join_map_singleton (f : Char → Char) (l : List Char) :
    (String.join (l.map (fun c => String.singleton (f c)))).data = l.map f := by
  rw [String.data_join, List.map_map]
  induction l with
  | nil => rfl
  | cons c rest ih => simp_all [String.singleton]

theorem sanitize_eq_spec (s : String) : sanitize s = sanitizeSpec s := by
  apply String.ext
  have he : (fun c => match lookupA c.toNat _trans_table with
      | some r => r
      | none => String.singleton c)
      = (fun c => String.singleton (if c ∈ _bad_chars.data then '_' else c)) :=
    funext translateChar_eq
  simp only [sanitize, translate, sanitizeSpec, he]
  rw [join_map_singleton]

theorem sanitizeSpec_idem (s : String) : sanitizeSpec (sanitizeSpec s) = sanitizeSpec s := by
  apply String.ext
  simp only [sanitizeSpec, List.map_map]
  apply List.map_congr_left
  intro a _
  by_cases h : a ∈ _bad_chars.data
  · simp only [Function.comp, h, if_true, if_pos h]
    have h2 : ¬ ('_' ∈ _bad_chars.data) := by decide
    simp [h2]
  · simp [Function.comp, h]

theorem mem_contribOf {ident : HostRecord → String} {g x : String} {h : HostRecord} :
    x ∈ contribOf ident g h
      ↔ (∃ raw ∈ groupsOrDefault h, sanitize raw = g) ∧ ident h = x := by
  constructor
  · intro hx
    rcases List.mem_filterMap.mp hx with ⟨raw, hraw, he⟩
    by_cases hc : sanitize raw = g
    · rw [if_pos hc] at he
      exact ⟨⟨raw, hraw, hc⟩, Option.some.inj he⟩
    · rw [if_neg hc] at he
      cases he
  · rintro ⟨⟨raw, hraw, hc⟩, hid⟩
    exact List.mem_filterMap.mpr ⟨raw, hraw, by rw [if_pos hc, hid]⟩

theorem mem_allContrib {ident : HostRecord → String} {g x : String} (hosts : List HostRecord) :
    x ∈ allContrib ident g hosts ↔ ∃ h ∈ hosts, x ∈ contribOf ident g h := by
  induction hosts with
  | nil => simp [allContrib]
  | cons h hs ih =>
    simp only [allContrib, List.mem_append, ih, List.mem_cons]
    constructor
    · rintro (hx | ⟨h2, hh2, hx⟩)
      · exact ⟨h, Or.inl rfl, hx⟩
      · exact ⟨h2, Or.inr hh2, hx⟩
    · rintro ⟨h2, h2c, hx⟩
      rcases h2c with h2c | h2c
      · subst h2c
        exact Or.inl hx
      · exact Or.inr ⟨h2, h2c, hx⟩

theorem build_byIp_hostvars (hosts : List HostRecord) (a : String) :
    lookupA a (build_inventory_by_ip hosts).2
      = (hosts.find? (fun h => h.ip == a)).map hostvarsByIp := by
  have e := hostvars_foldl_byIp hosts ([], []) a
  simpa [build_inventory_by_ip, lookupA, Option.none_or] using e

theorem build_byIp_groups (hosts : List HostRecord) (g : String) :
    lookupA g (build_inventory_by_ip hosts).1
      = if (allContrib HostRecord.ip g hosts).isEmpty then none
        else some (allContrib HostRecord.ip g hosts) := by
  have e := groups_foldl_byIp hosts ([], []) g
  simpa [build_inventory_by_ip, lookupA, combineOpt] using e

theorem build_byName_hostvars (hosts : List HostRecord) (n : String) :
    lookupA n (build_inventory_by_name hosts).2
      = (hosts.reverse.find? (fun h => h.name == n)).map hostvarsByName := by
  have e := hostvars_foldl_byName hosts ([], []) n
  simpa [build_inventory_by_name, lookupA, Option.or_none] using e

theorem build_byName_groups (hosts : List HostRecord) (g : String) :
    lookupA g (build_inventory_by_name hosts).1
      = if (allContrib HostRecord.name g hosts).isEmpty then none
        else some (allContrib HostRecord.name g hosts) := by
  have e := groups_foldl_byName hosts ([], []) g
  simpa [build_inventory_by_name, lookupA, combineOpt] using e

/-- A host whose record has an empty groups list, and whose identifier no
other record bears, appears in the sentinel group's host list and in no
other group list of the built groups mapping. -/
theorem sentinel_only {ident : HostRecord → String} {hosts : List HostRecord} {inv : Groups}
    (hchar : ∀ g, lookupA g inv
      = if (allContrib ident g hosts).isEmpty then none
        else some (allContrib ident g hosts))
    {h : HostRecord} (hmem : h ∈ hosts) (hempty : h.groups = [])
    (huniq : ∀ h2 ∈ hosts, ident h2 = ident h → h2 = h) :
    (∃ l0, lookupA "_NOGROUP" inv = some l0 ∧ ident h ∈ l0)
    ∧ ∀ g l, lookupA g inv = some l → (ident h ∈ l ↔ g = "_NOGROUP") := by
  have hgd : groupsOrDefault h = ["_NOGROUP"] := by
    simp [groupsOrDefault, hempty]
  have hsan : sanitize "_NOGROUP" = "_NOGROUP" := by decide
  have hcon : ident h ∈ contribOf ident "_NOGROUP" h := by
    rw [mem_contribOf]
    exact ⟨⟨"_NOGROUP", by rw [hgd]; exact List.mem_singleton_self _, hsan⟩, rfl⟩
  have hall : ident h ∈ allContrib ident "_NOGROUP" hosts :=
    (mem_allContrib hosts).mpr ⟨h, hmem, hcon⟩
  have hne : ¬ ((allContrib ident "_NOGROUP" hosts).isEmpty = true) := by
    intro hie
    rw [List.isEmpty_iff] at hie
    rw [hie] at hall
    cases hall
  constructor
  · refine ⟨allContrib ident "_NOGROUP" hosts, ?_, hall⟩
    rw [hchar "_NOGROUP", if_neg hne]
  · intro g l hl
    rw [hchar g] at hl
    by_cases he : (allContrib ident g hosts).isEmpty
    · rw [if_pos he] at hl
      cases hl
    · rw [if_neg he] at hl
      have hleq : allContrib ident g hosts = l := Option.some.inj hl
      constructor
      · intro hx
        rw [← hleq] at hx
        rcases (mem_allContrib hosts).mp hx with ⟨h2, hh2, hc2⟩
        rcases mem_contribOf.mp hc2 with ⟨⟨raw, hraw, hsg⟩, hid⟩
        have h2h : h2 = h := huniq h2 hh2 hid
        subst h2h
        rw [hgd] at hraw
        have hrn : raw = "_NOGROUP" := by simpa using hraw
        subst hrn
        rw [← hsg, hsan]
      · intro hg
        subst hg
        rw [← hleq]
        exact hall

/-- C1: in address-keyed mode, the host-variables entry under any address is
derived from the first record bearing that address in input order, an
address has an entry exactly when some record bears it (so the key set is
the set of distinct addresses), and the host list of every group named `g`
is the concatenation, in input order, of one copy of the record's address
per raw group sanitizing to `g` — so records with a duplicate address
still have their address appended to each of their (sanitized) groups. -/
theorem claim_C1 :
    (∀ (hosts : List HostRecord) (a : String),
        lookupA a (build_inventory_by_ip hosts).2
          = (hosts.find? (fun h => h.ip == a)).map hostvarsByIp)
    ∧ (∀ (hosts : List HostRecord) (a : String),
        (lookupA a (build_inventory_by_ip hosts).2).isSome
          ↔ a ∈ hosts.map (fun h => h.ip))
    ∧ (∀ (hosts : List HostRecord) (g : String),
        lookupA g (build_inventory_by_ip hosts).1
          = if (allContrib HostRecord.ip g hosts).isEmpty then none
            else some (allContrib HostRecord.ip g hosts)) := by
  refine ⟨build_byIp_hostvars, ?_, build_byIp_groups⟩
  intro hosts a
  rw [build_byIp_hostvars]
  simp [Option.isSome_map, List.find?_isSome, List.mem_map, beq_iff_eq]

/-- C2: delimited-text decoding of the response
`"10.0.0.1;web1;Web One;prod,web\n"` yields exactly one host record, with
address `10.0.0.1`, name `web1`, alias `Web One`, groups `["prod", "web"]`
and no custom variables. -/
theorem claim_C2 :
    decodeDelimited "10.0.0.1;web1;Web One;prod,web\n"
      = Except.ok [{ ip := "10.0.0.1", name := "web1", «alias» := "Web One",
                     groups := ["prod", "web"], custom_vars := [] }] := rfl

/-- C3: the claim fails on the code: `_read_from_socket` performs a single
bounded `recv`, so on a response delivered as the two stream chunks
`["ab", "cd"]` it returns only `"ab"`, while accumulating until the peer
closes the connection returns the full text `"abcd"`. -/
theorem claim_C3 :
    _read_from_socket ["ab", "cd"] = "ab"
    ∧ readUntilClose ["ab", "cd"] = "abcd"
    ∧ _read_from_socket ["ab", "cd"] ≠ readUntilClose ["ab", "cd"] := by
  refine ⟨rfl, by decide, by decide⟩

/-- C4: a record with an empty groups list lands in the sentinel group
`_NOGROUP` and (when no other record bears its identifier) in no other
group, in both build modes; and the two-record scenario builds, in
name-keyed mode, exactly the groups
`[("prod", ["web1"]), ("web", ["web1"]), ("_NOGROUP", ["web2"])]`. -/
theorem claim_C4 :
    (∀ (hosts : List HostRecord) (h : HostRecord), h ∈ hosts → h.groups = [] →
      (∀ h2 ∈ hosts, h2.name = h.name → h2 = h) →
      (∃ l0, lookupA "_NOGROUP" (build_inventory_by_name hosts).1 = some l0
          ∧ h.name ∈ l0)
      ∧ ∀ (g : String) (l : List String),
          lookupA g (build_inventory_by_name hosts).1 = some l →
            (h.name ∈ l ↔ g = "_NOGROUP"))
    ∧ (∀ (hosts : List HostRecord) (h : HostRecord), h ∈ hosts → h.groups = [] →
      (∀ h2 ∈ hosts, h2.ip = h.ip → h2 = h) →
      (∃ l0, lookupA "_NOGROUP" (build_inventory_by_ip hosts).1 = some l0
          ∧ h.ip ∈ l0)
      ∧ ∀ (g : String) (l : List String),
          lookupA g (build_inventory_by_ip hosts).1 = some l →
            (h.ip ∈ l ↔ g = "_NOGROUP"))
    ∧ (build_inventory_by_name
        [{ ip := "10.0.0.1", name := "web1", «alias» := "", groups := ["prod", "web"],
           custom_vars := [] },
         { ip := "10.0.0.2", name := "web2", «alias» := "", groups := [],
           custom_vars := [] }]).1
        = [("prod", ["web1"]), ("web", ["web1"]), ("_NOGROUP", ["web2"])] := by
  refine ⟨?_, ?_, by decide⟩
  · intro hosts h hmem hempty huniq
    exact sentinel_only (build_byName_groups hosts) hmem hempty huniq
  · intro hosts h hmem hempty huniq
    exact sentinel_only (build_byIp_groups hosts) hmem hempty huniq

/-- Witness for C4: in the two-record scenario, `web2` has an empty groups
list and a unique name, so its name is in the sentinel group's host list,
and its membership in a looked-up group list holds exactly for the
sentinel group. -/
theorem claim_C4_witness :
    (∃ l0, lookupA "_NOGROUP" (build_inventory_by_name
        [{ ip := "10.0.0.1", name := "web1", «alias» := "", groups := ["prod", "web"],
           custom_vars := [] },
         { ip := "10.0.0.2", name := "web2", «alias» := "", groups := [],
           custom_vars := [] }]).1 = some l0 ∧ "web2" ∈ l0)
    ∧ ∀ (g : String) (l : List String),
        lookupA g (build_inventory_by_name
          [{ ip := "10.0.0.1", name := "web1", «alias» := "", groups := ["prod", "web"],
             custom_vars := [] },
           { ip := "10.0.0.2", name := "web2", «alias» := "", groups := [],
             custom_vars := [] }]).1 = some l →
          ("web2" ∈ l ↔ g = "_NOGROUP") :=
  claim_C4.1
    [{ ip := "10.0.0.1", name := "web1", «alias» := "", groups := ["prod", "web"],
       custom_vars := [] },
     { ip := "10.0.0.2", name := "web2", «alias» := "", groups := [],
       custom_vars := [] }]
    { ip := "10.0.0.2", name := "web2", «alias» := "", groups := [], custom_vars := [] }
    (by decide) rfl (by decide)

/-- C5: sanitization replaces every occurrence of each forbidden character
(period, comma, semicolon, colon, square brackets, slash, space) with the
single replacement character `_` and leaves all other characters unchanged
(`sanitizeSpec` is exactly this per-character description); in particular
`"db.prod 01"` sanitizes to `"db_prod_01"`. -/
theorem claim_C5 :
    (∀ s : String, sanitize s = sanitizeSpec s)
    ∧ sanitize "db.prod 01" = "db_prod_01" :=
  ⟨sanitize_eq_spec, by decide⟩

/-- C6: group-name sanitization is idempotent. -/
theorem claim_C6 (s : String) : sanitize (sanitize s) = sanitize s := by
  rw [sanitize_eq_spec, sanitize_eq_spec, sanitizeSpec_idem]

/-- C7: the single-host lookup never errors: for every inventory and
requested identifier it returns the JSON empty object when the
identifier is absent from the host-variables mapping, and the JSON dump of
that host's variable map when present. -/
theorem claim_C7 :
    (∀ (inv : Inventory) (name : String), lookupA name inv.2 = none →
        host inv name = "\x7b\x7d")
    ∧ (∀ (inv : Inventory) (name : String) (v : HVars), lookupA name inv.2 = some v →
        host inv name = jdumps v) := by
  constructor
  · intro inv name h
    simp [host, h]
  · intro inv name v h
    simp [host, h]

/-- Witness for C7: the identifier `web9` is absent from the empty inventory
and yields the empty JSON object; `web1` is present in a one-host
inventory and yields its serialized variable map. -/
theorem claim_C7_witness :
    host (([], []) : Inventory) "web9" = "\x7b\x7d"
    ∧ host (([("prod", ["web1"])],
        [("web1", [("ansible_host", VarVal.str "10.0.0.1")])]) : Inventory) "web1"
      = jdumps [("ansible_host", VarVal.str "10.0.0.1")] :=
  ⟨claim_C7.1 ([], []) "web9" rfl,
   claim_C7.2 (([("prod", ["web1"])],
       [("web1", [("ansible_host", VarVal.str "10.0.0.1")])]) : Inventory)
     "web1" [("ansible_host", VarVal.str "10.0.0.1")] (by decide)⟩

/-- C9: in name-keyed mode the host-variables entry under any name is the one
of the last record bearing that name in input order (later records
overwrite earlier entries), while each record still appends its name to
its groups' host lists; a concrete two-record duplicate-name scenario
shows the second record's variables retained and both appends present. -/
theorem claim_C9 :
    (∀ (hosts : List HostRecord) (n : String),
        lookupA n (build_inventory_by_name hosts).2
          = (hosts.reverse.find? (fun h => h.name == n)).map hostvarsByName)
    ∧ (∀ (hosts : List HostRecord) (g : String),
        lookupA g (build_inventory_by_name hosts).1
          = if (allContrib HostRecord.name g hosts).isEmpty then none
            else some (allContrib HostRecord.name g hosts))
    ∧ lookupA "dup" (build_inventory_by_name
        [{ ip := "10.0.0.1", name := "dup", «alias» := "first", groups := ["g1"],
           custom_vars := [] },
         { ip := "10.0.0.2", name := "dup", «alias» := "second", groups := ["g2"],
           custom_vars := [] }]).2
        = some (hostvarsByName
            { ip := "10.0.0.2", name := "dup", «alias» := "second", groups := ["g2"],
              custom_vars := [] })
    ∧ lookupA "g1" (build_inventory_by_name
        [{ ip := "10.0.0.1", name := "dup", «alias» := "first", groups := ["g1"],
           custom_vars := [] },
         { ip := "10.0.0.2", name := "dup", «alias» := "second", groups := ["g2"],
           custom_vars := [] }]).1
        = some ["dup"] :=
  ⟨build_byName_hostvars, build_byName_groups, by decide, by decide⟩

/-- C10: host identifiers are used verbatim, with no sanitization: every
element of every group's host list is the exact `name` (name-keyed mode)
or `ip` (address-keyed mode) field of some record, every host-variables
key likewise, and a record whose name contains forbidden characters keeps
it unchanged both as a group-list element and as a host-variables key. -/
theorem claim_C10 :
    (∀ (hosts : List HostRecord) (g : String) (l : List String) (x : String),
        lookupA g (build_inventory_by_name hosts).1 = some l → x ∈ l →
          ∃ h ∈ hosts, h.name = x)
    ∧ (∀ (hosts : List HostRecord) (x : String),
        (lookupA x (build_inventory_by_name hosts).2).isSome →
          ∃ h ∈ hosts, h.name = x)
    ∧ (∀ (hosts : List HostRecord) (g : String) (l : List String) (x : String),
        lookupA g (build_inventory_by_ip hosts).1 = some l → x ∈ l →
          ∃ h ∈ hosts, h.ip = x)
    ∧ (∀ (hosts : List HostRecord) (x : String),
        (lookupA x (build_inventory_by_ip hosts).2).isSome →
          ∃ h ∈ hosts, h.ip = x)
    ∧ build_inventory_by_name
        [{ ip := "10.0.0.1", name := "db.prod 01", «alias» := "A", groups := ["g"],
           custom_vars := [] }]
        = ([("g", ["db.prod 01"])],
           [("db.prod 01", hostvarsByName
              { ip := "10.0.0.1", name := "db.prod 01", «alias» := "A", groups := ["g"],
                custom_vars := [] })]) := by
  refine ⟨?_, ?_, ?_, ?_, by decide⟩
  · intro hosts g l x hl hx
    rw [build_byName_groups] at hl
    by_cases he : (allContrib HostRecord.name g hosts).isEmpty
    · rw [if_pos he] at hl
      cases hl
    · rw [if_neg he] at hl
      rw [← Option.some.inj hl] at hx
      rcases (mem_allContrib hosts).mp hx with ⟨h, hh, hc⟩
      exact ⟨h, hh, (mem_contribOf.mp hc).2⟩
  · intro hosts x hs
    rw [build_byName_hostvars] at hs
    rcases Option.isSome_iff_exists.mp hs with ⟨v, hv⟩
    rcases Option.map_eq_some'.mp hv with ⟨h, hfind, _⟩
    refine ⟨h, List.mem_reverse.mp (List.mem_of_find?_eq_some hfind), ?_⟩
    have := List.find?_some hfind
    simpa using this
  · intro hosts g l x hl hx
    rw [build_byIp_groups] at hl
    by_cases he : (allContrib HostRecord.ip g hosts).isEmpty
    · rw [if_pos he] at hl
      cases hl
    · rw [if_neg he] at hl
      rw [← Option.some.inj hl] at hx
      rcases (mem_allContrib hosts).mp hx with ⟨h, hh, hc⟩
      exact ⟨h, hh, (mem_contribOf.mp hc).2⟩
  · intro hosts x hs
    rw [build_byIp_hostvars] at hs
    rcases Option.isSome_iff_exists.mp hs with ⟨v, hv⟩
    rcases Option.map_eq_some'.mp hv with ⟨h, hfind, _⟩
    refine ⟨h, List.mem_of_find?_eq_some hfind, ?_⟩
    have := List.find?_some hfind
    simpa using this

/-- Witness for C10: in the single-record inventory whose host name contains
forbidden characters, the group-list element and the host-variables key
are both witnessed to come from the record verbatim. -/
theorem claim_C10_witness :
    ∃ h ∈ ([{ ip := "10.0.0.1", name := "db.prod 01", «alias» := "A", groups := ["g"],
              custom_vars := [] }] : List HostRecord), h.name = "db.prod 01" :=
  claim_C10.1
    [{ ip := "10.0.0.1", name := "db.prod 01", «alias» := "A", groups := ["g"],
       custom_vars := [] }]
    "g" ["db.prod 01"] "db.prod 01" (by decide) (by decide)

theorem mapO_isSome {α β : Type} (f : α → Option β) (l : List α)
    (hf : ∀ x ∈ l, (f x).isSome) : (mapO f l).isSome := by
  induction l with
  | nil => rfl
  | cons x xs ih =>
    rcases Option.isSome_iff_exists.mp (hf x (List.mem_cons_self x xs)) with ⟨y, hy⟩
    have hxs := ih (fun z hz => hf z (List.mem_cons_of_mem _ hz))
    rcases Option.isSome_iff_exists.mp hxs with ⟨ys, hys⟩
    simp [mapO, hy, hys]

theorem mem_appendGroup_elem {g idf : String} {inv : Groups} {p : String × List String}
    {x : String} (hp : p ∈ appendGroup g idf inv) (hx : x ∈ p.2) :
    (∃ q ∈ inv, x ∈ q.2) ∨ x = idf := by
  induction inv with
  | nil =>
    simp [appendGroup] at hp
    subst hp
    simp at hx
    exact Or.inr hx
  | cons q rest ih =>
    by_cases h : q.1 = g
    · rw [show appendGroup g idf (q :: rest) = (q.1, q.2 ++ [idf]) :: rest from by
        rw [appendGroup, if_pos h]] at hp
      rcases List.mem_cons.mp hp with hp1 | hp2
      · subst hp1
        rcases List.mem_append.mp hx with hL | hR
        · exact Or.inl ⟨q, List.mem_cons_self _ _, hL⟩
        · exact Or.inr (by simpa using hR)
      · exact Or.inl ⟨p, List.mem_cons_of_mem _ hp2, hx⟩
    · rw [show appendGroup g idf (q :: rest) = q :: appendGroup g idf rest from by
        rw [appendGroup, if_neg h]] at hp
      rcases List.mem_cons.mp hp with hp1 | hp2
      · subst hp1
        exact Or.inl ⟨p, List.mem_cons_self _ _, hx⟩
      · rcases ih hp2 with ⟨q2, hq2, hxq⟩ | he
        · exact Or.inl ⟨q2, List.mem_cons_of_mem _ hq2, hxq⟩
        · exact Or.inr he

theorem mem_addGroups_elem {idf : String} (gs : List String) {inv : Groups}
    {p : String × List String} {x : String}
    (hp : p ∈ addGroups idf gs inv) (hx : x ∈ p.2) :
    (∃ q ∈ inv, x ∈ q.2) ∨ x = idf := by
  induction gs generalizing inv with
  | nil => exact Or.inl ⟨p, hp, hx⟩
  | cons g rest ih =>
    have e : addGroups idf (g :: rest) inv
        = addGroups idf rest (appendGroup (sanitize g) idf inv) := rfl
    rw [e] at hp
    rcases ih hp with ⟨q, hq, hxq⟩ | he
    · exact mem_appendGroup_elem hq hxq
    · exact Or.inr he

theorem groups_elem_foldl_byIp :
    ∀ (hosts : List HostRecord) (st : Inventory) (p : String × List String) (x : String),
      p ∈ (hosts.foldl stepByIp st).1 → x ∈ p.2 →
        (∃ q ∈ st.1, x ∈ q.2) ∨ ∃ h ∈ hosts, h.ip = x := by
  intro hosts
  induction hosts with
  | nil =>
    intro st p x hp hx
    exact Or.inl ⟨p, hp, hx⟩
  | cons h hs ih =>
    intro st p x hp hx
    have e : (h :: hs).foldl stepByIp st = hs.foldl stepByIp (stepByIp st h) := rfl
    rw [e] at hp
    rcases ih (stepByIp st h) p x hp hx with ⟨q, hq, hxq⟩ | ⟨h2, hh2, he⟩
    · rcases mem_addGroups_elem (groupsOrDefault h) hq hxq with hin | he
      · exact Or.inl hin
      · exact Or.inr ⟨h, List.mem_cons_self _ _, he.symm⟩
    · exact Or.inr ⟨h2, List.mem_cons_of_mem _ hh2, he⟩

theorem groups_elem_foldl_byName :
    ∀ (hosts : List HostRecord) (st : Inventory) (p : String × List String) (x : String),
      p ∈ (hosts.foldl stepByName st).1 → x ∈ p.2 →
        (∃ q ∈ st.1, x ∈ q.2) ∨ ∃ h ∈ hosts, h.name = x := by
  intro hosts
  induction hosts with
  | nil =>
    intro st p x hp hx
    exact Or.inl ⟨p, hp, hx⟩
  | cons h hs ih =>
    intro st p x hp hx
    have e : (h :: hs).foldl stepByName st = hs.foldl stepByName (stepByName st h) := rfl
    rw [e] at hp
    rcases ih (stepByName st h) p x hp hx with ⟨q, hq, hxq⟩ | ⟨h2, hh2, he⟩
    · rcases mem_addGroups_elem (groupsOrDefault h) hq hxq with hin | he
      · exact Or.inl hin
      · exact Or.inr ⟨h, List.mem_cons_self _ _, he.symm⟩
    · exact Or.inr ⟨h2, List.mem_cons_of_mem _ hh2, he⟩

theorem byName_hostvars_isSome_of_mem (hosts : List HostRecord) (h : HostRecord)
    (hh : h ∈ hosts) : (lookupA h.name (build_inventory_by_name hosts).2).isSome := by
  rw [build_byName_hostvars]
  have hf : (hosts.reverse.find? (fun h0 => h0.name == h.name)).isSome :=
    List.find?_isSome.mpr ⟨h, List.mem_reverse.mpr hh, by simp⟩
  rcases Option.isSome_iff_exists.mp hf with ⟨v, hv⟩
  rw [hv]
  rfl

theorem byIp_hostvars_isSome_of_mem (hosts : List HostRecord) (h : HostRecord)
    (hh : h ∈ hosts) : (lookupA h.ip (build_inventory_by_ip hosts).2).isSome := by
  rw [build_byIp_hostvars]
  have hf : (hosts.find? (fun h0 => h0.ip == h.ip)).isSome :=
    List.find?_isSome.mpr ⟨h, hh, by simp⟩
  rcases Option.isSome_iff_exists.mp hf with ⟨v, hv⟩
  rw [hv]
  rfl

/-- If every identifier in any group list of `inv` has a hostvars entry, the
static renderer succeeds on `inv`. -/
theorem static_isSome {now : String} {inv : Inventory}
    (hinv : ∀ p ∈ inv.1, ∀ x ∈ p.2, (lookupA x inv.2).isSome) :
    (static now inv).isSome := by
  have houter : (mapO (fun p =>
      (mapO (staticHostLine inv.2) p.2).map
        (fun lines => ("\n[" ++ p.1 ++ "]") :: lines)) inv.1).isSome := by
    apply mapO_isSome
    intro p hp
    have hinner : (mapO (staticHostLine inv.2) p.2).isSome := by
      apply mapO_isSome
      intro x hx
      rcases Option.isSome_iff_exists.mp (hinv p hp x hx) with ⟨v, hv⟩
      unfold staticHostLine
      rw [hv]
      rfl
    rcases Option.isSome_iff_exists.mp hinner with ⟨ls, hls⟩
    rw [hls]
    rfl
  unfold static
  rcases Option.isSome_iff_exists.mp houter with ⟨secs, hsecs⟩
  rw [hsecs]
  rfl

theorem built_grouped_have_hostvars_byName (hosts : List HostRecord) :
    ∀ p ∈ (build_inventory_by_name hosts).1, ∀ x ∈ p.2,
      (lookupA x (build_inventory_by_name hosts).2).isSome := by
  intro p hp x hx
  rcases groups_elem_foldl_byName hosts ([], []) p x hp hx with ⟨q, hq, _⟩ | ⟨h, hh, he⟩
  · cases hq
  · exact he ▸ byName_hostvars_isSome_of_mem hosts h hh

theorem built_grouped_have_hostvars_byIp (hosts : List HostRecord) :
    ∀ p ∈ (build_inventory_by_ip hosts).1, ∀ x ∈ p.2,
      (lookupA x (build_inventory_by_ip hosts).2).isSome := by
  intro p hp x hx
  rcases groups_elem_foldl_byIp hosts ([], []) p x hp hx with ⟨q, hq, _⟩ | ⟨h, hh, he⟩
  · cases hq
  · exact he ▸ byIp_hostvars_isSome_of_mem hosts h hh

/-- C8: after either build, every host identifier occurring in any group's
host list has an entry in the host-variables mapping stored under
`'_meta'`, and consequently the static renderer succeeds (its per-host
variable lookup is defined for every host it emits). -/
theorem claim_C8 :
    (∀ (hosts : List HostRecord) (g : String) (l : List String) (x : String),
        lookupA g (build_inventory_by_name hosts).1 = some l → x ∈ l →
          (lookupA x (build_inventory_by_name hosts).2).isSome)
    ∧ (∀ (hosts : List HostRecord) (g : String) (l : List String) (x : String),
        lookupA g (build_inventory_by_ip hosts).1 = some l → x ∈ l →
          (lookupA x (build_inventory_by_ip hosts).2).isSome)
    ∧ (∀ (hosts : List HostRecord) (now : String),
        (static now (build_inventory_by_name hosts)).isSome)
    ∧ (∀ (hosts : List HostRecord) (now : String),
        (static now (build_inventory_by_ip hosts)).isSome) := by
  refine ⟨?_, ?_, ?_, ?_⟩
  · intro hosts g l x hl hx
    rw [build_byName_groups] at hl
    by_cases he : (allContrib HostRecord.name g hosts).isEmpty
    · rw [if_pos he] at hl
      cases hl
    · rw [if_neg he] at hl
      rw [← Option.some.inj hl] at hx
      rcases (mem_allContrib hosts).mp hx with ⟨h, hh, hc⟩
      exact (mem_contribOf.mp hc).2 ▸ byName_hostvars_isSome_of_mem hosts h hh
  · intro hosts g l x hl hx
    rw [build_byIp_groups] at hl
    by_cases he : (allContrib HostRecord.ip g hosts).isEmpty
    · rw [if_pos he] at hl
      cases hl
    · rw [if_neg he] at hl
      rw [← Option.some.inj hl] at hx
      rcases (mem_allContrib hosts).mp hx with ⟨h, hh, hc⟩
      exact (mem_contribOf.mp hc).2 ▸ byIp_hostvars_isSome_of_mem hosts h hh
  · intro hosts now
    exact static_isSome (built_grouped_have_hostvars_byName hosts)
  · intro hosts now
    exact static_isSome (built_grouped_have_hostvars_byIp hosts)

/-- Witness for C8: in a concrete one-record name-keyed inventory, the host
`web1` listed under group `prod` has a hostvars entry. -/
theorem claim_C8_witness :
    (lookupA "web1" (build_inventory_by_name
      [{ ip := "10.0.0.1", name := "web1", «alias» := "A", groups := ["prod"],
         custom_vars := [] }]).2).isSome :=
  claim_C8.1
    [{ ip := "10.0.0.1", name := "web1", «alias» := "A", groups := ["prod"],
       custom_vars := [] }]
    "prod" ["web1"] "web1" (by decide) (by decide)

end OMDLivestatus
